import Mathlib

/-!
# Verification of `calculate_pi.cpp`

A shallow embedding of `docker_build_example/calculate_pi.cpp` (the midpoint-rule
estimate of π and its command-line driver) and proofs about it.

Modelling conventions:

* a C++ `double` is a `Dbl`: a finite value carried as an exact rational, or one of
  the IEEE-754 special values `+Inf`, `-Inf`, `NaN`.  Finite arithmetic is exact
  (no rounding), the special values follow the IEEE-754 rules;
* a C++ `int` is an `Int` (no operation of the program overflows: the only `int`
  arithmetic is `i++` below `num_steps` and below `n_repeat`);
* the `for` loop of `calculate_pi` is a total recursive function on the loop state;
* the OpenMP `parallel for reduction (+:sum)` construct is modelled twice: as the
  sequential loop, and as a list of per-worker index shares with private partial sums.
-/

namespace CalculatePi

/-! ## Doubles -/

/-- Value of a C++ `double`: a finite number, read exactly, or an IEEE-754 special value.
The two signed zeros are identified (they compare equal in C++). Equality of `Dbl` is
identity of values, so `nan = nan` holds here although `NaN == NaN` is false in C++. -/
inductive Dbl where
  | fin (q : ℚ)
  | pinf
  | ninf
  | nan
deriving DecidableEq, Repr

namespace Dbl

/-- Conversion `int → double`. -/
def ofInt (n : Int) : Dbl := fin n

/-- The infinity with the sign of a non-zero finite value. -/
def infOfSign (a : ℚ) : Dbl := if 0 < a then pinf else ninf

/-- Addition of doubles: `Inf + (-Inf)` is `NaN`, `NaN` propagates. -/
def add : Dbl → Dbl → Dbl
  | fin a, fin b => fin (a + b)
  | fin _, pinf => pinf
  | fin _, ninf => ninf
  | pinf, fin _ => pinf
  | pinf, pinf => pinf
  | ninf, fin _ => ninf
  | ninf, ninf => ninf
  | _, _ => nan

/-- Multiplication of doubles: `Inf * 0` is `NaN`, `NaN` propagates. -/
def mul : Dbl → Dbl → Dbl
  | fin a, fin b => fin (a * b)
  | fin a, pinf => if a = 0 then nan else infOfSign a
  | fin a, ninf => if a = 0 then nan else infOfSign (-a)
  | pinf, fin b => if b = 0 then nan else infOfSign b
  | ninf, fin b => if b = 0 then nan else infOfSign (-b)
  | pinf, pinf => pinf
  | ninf, ninf => pinf
  | pinf, ninf => ninf
  | ninf, pinf => ninf
  | _, _ => nan

/-- Division of doubles: a non-zero finite value divided by zero is an infinity,
`0 / 0` and `Inf / Inf` are `NaN`, a finite value divided by an infinity is zero.
A zero divisor is read as `+0.0` (the only zero divisor the program can produce is the
conversion of the `int` 0). -/
def div : Dbl → Dbl → Dbl
  | fin a, fin b => if b = 0 then (if a = 0 then nan else infOfSign a) else fin (a / b)
  | fin _, pinf => fin 0
  | fin _, ninf => fin 0
  | pinf, fin b => if 0 ≤ b then pinf else ninf
  | ninf, fin b => if 0 ≤ b then ninf else pinf
  | _, _ => nan

instance : Add Dbl := ⟨add⟩

instance : Mul Dbl := ⟨mul⟩

instance : Div Dbl := ⟨div⟩

end Dbl

/-! ## `calculate_pi` -/

/-- The variables the loop of `calculate_pi` changes: the counter `i` and the
accumulator `sum`. -/
structure LoopState where
  i : Int
  sum : Dbl
deriving DecidableEq, Repr

/-- The value `4.0/(1.0+x*x)` with `x = (i+0.5)*step` that one iteration adds to `sum`. -/
def integrand_at (step : Dbl) (i : Int) : Dbl :=
  let x := (Dbl.ofInt i + Dbl.fin (1/2)) * step
  Dbl.fin 4 / (Dbl.fin 1 + x * x)

/-- One iteration of the loop body followed by `i++`. -/
def loop_body (step : Dbl) (s : LoopState) : LoopState :=
  { i := s.i + 1, sum := s.sum + integrand_at step s.i }

/-- The loop `for (...; i < num_steps; i++) { x = (i+0.5)*step; sum += 4.0/(1.0+x*x); }`
run from the state `s` until its guard fails. -/
def calculate_pi_loop (num_steps : Int) (step : Dbl) (s : LoopState) : LoopState :=
  if s.i < num_steps then calculate_pi_loop num_steps step (loop_body step s) else s
termination_by (num_steps - s.i).toNat
decreasing_by
  simp only [loop_body]
  omega

/-- The function `double calculate_pi(int num_steps)`, its reduction loop read as a
sequential sum. -/
def calculate_pi (num_steps : Int) : Dbl :=
  let sum := Dbl.fin 0
  let step := Dbl.fin 1 / Dbl.ofInt num_steps
  let s := calculate_pi_loop num_steps step { i := 0, sum := sum }
  step * s.sum

/-- The composite midpoint-rule sum in the words of the specification:
`step * Σ_{i < num_steps} 4 / (1 + x_i^2)` with `step = 1/num_steps` and
`x_i = (i + 0.5) * step`, over the rationals. -/
def midpoint_rule (num_steps : Int) : ℚ :=
  let step : ℚ := 1 / num_steps
  step * ∑ i in Finset.range num_steps.toNat, 4 / (1 + (((i : ℚ) + 1/2) * step) ^ 2)

/-- The summand `4 / (1 + ((i + 0.5) * step)^2)` over the rationals. -/
def term (step : ℚ) (i : Int) : ℚ := 4 / (1 + (((i : ℚ) + 1/2) * step) ^ 2)

/-! ## The reduction clause -/

/-- The private partial sum of one worker of `#pragma omp parallel for reduction (+:sum)`:
its copy of `sum` starts at 0 and the loop body runs for the indices of its share, in the
order listed. -/
def worker_sum (step : Dbl) (share : List Int) : Dbl :=
  share.foldl (fun sum i => sum + integrand_at step i) (Dbl.fin 0)

/-- The function `calculate_pi` with its loop run by workers: `shares` lists, for each
worker, the loop indices assigned to it; the private partial sums are added to the
original `sum` (0) in the order of the list, and the result is `step * sum`. -/
def calculate_pi_workers (num_steps : Int) (shares : List (List Int)) : Dbl :=
  let step := Dbl.fin 1 / Dbl.ofInt num_steps
  let sum := shares.foldl (fun sum share => sum + worker_sum step share) (Dbl.fin 0)
  step * sum

/-! ## Errors -/

/-- The one error kind the specification names. The program defines no error value of
its own: it has no `throw`, no error return and no non-zero exit. -/
inductive ErrorKind where
  | InvalidArgument
deriving DecidableEq, Repr

/-- The way a call `calculate_pi(num_steps)` completes: the body of the function has
no guard and no `throw`, every call ends in `return pi`. -/
def calculate_pi_call (num_steps : Int) : Except ErrorKind Dbl :=
  Except.ok (calculate_pi num_steps)

/-! ## `main` -/

/-- The C predicate `isspace` in the "C" locale: space, `\t`, `\n`, `\v`, `\f`, `\r`. -/
def isspace (c : Char) : Bool :=
  c.toNat == 32 || (9 ≤ c.toNat && c.toNat ≤ 13)

/-- The digits loop of `strtol` in base 10: reads decimal digits into `acc` and stops
at the first character that is not a digit. -/
def atoi_digits : List Char → Int → Int
  | [], acc => acc
  | c :: cs, acc =>
    if c.isDigit then atoi_digits cs (acc * 10 + ((c.toNat : Int) - 48)) else acc

/-- The conversion `long → int` of a value out of range: two's complement wrap. -/
def wrap_int (v : Int) : Int := (v + 2 ^ 31) % 2 ^ 32 - 2 ^ 31

/-- The C library function `atoi`, as `(int) strtol(s, NULL, 10)`: leading white space
is skipped, an optional sign is read, then decimal digits up to the first other
character; without digits the value is 0. A value outside `long` saturates and the
conversion to `int` wraps (the C standard leaves the out-of-range case undefined). -/
def atoi (s : String) : Int :=
  let cs := s.toList.dropWhile isspace
  let v : Int :=
    match cs with
    | '-' :: ds => - atoi_digits ds 0
    | '+' :: ds => atoi_digits ds 0
    | ds => atoi_digits ds 0
  wrap_int (max (-(2 ^ 63)) (min (2 ^ 63 - 1) v))

/-- One item written to `std::cout`. -/
inductive Printed where
  | running (num_steps : Int) (num_threads : Int)
  | calculation (pi : Dbl)
  | duration (seconds : Dbl)
deriving DecidableEq, Repr

/-- The way a run of `main` ends: with an exit status and what it wrote to standard
output and to the error stream, or in undefined behaviour. -/
inductive MainResult where
  | exit (status : Int) (out : List Printed) (err : List String)
  | undefined
deriving DecidableEq, Repr

/-- The trial loop `for (int i = 0; i < n_repeat; i++) pi += calculate_pi(num_steps);`
with `remaining` iterations to go. -/
def main_loop (num_steps : Int) : Nat → Dbl → Dbl
  | 0, pi => pi
  | remaining + 1, pi => main_loop num_steps remaining (pi + calculate_pi num_steps)

/-- The function `main`. `num_threads` is what `omp_get_max_threads()` returns and
`elapsed` is `end_time - start_time` in seconds; `argv` is the argument vector.
Reading `argv[1]` when the vector has no second entry passes a null pointer to `atoi`,
which is undefined behaviour. -/
def main (num_threads : Int) (elapsed : Dbl) (argv : List String) : MainResult :=
  match argv.get? 1 with
  | none => MainResult.undefined
  | some arg =>
    let num_steps := atoi arg
    let n_repeat : Nat := 100
    let pi := main_loop num_steps n_repeat (Dbl.fin 0)
    MainResult.exit 0
      [Printed.running num_steps num_threads,
       Printed.calculation (pi / Dbl.ofInt n_repeat),
       Printed.duration (elapsed / Dbl.ofInt n_repeat)]
      []

/-! ## Finite arithmetic -/

theorem Dbl.fin_add_fin (a b : ℚ) : Dbl.fin a + Dbl.fin b = Dbl.fin (a + b) := rfl

theorem Dbl.fin_mul_fin (a b : ℚ) : Dbl.fin a * Dbl.fin b = Dbl.fin (a * b) := rfl

theorem Dbl.fin_div_fin (a b : ℚ) (hb : b ≠ 0) : Dbl.fin a / Dbl.fin b = Dbl.fin (a / b) := by
  show Dbl.div (Dbl.fin a) (Dbl.fin b) = _
  simp [Dbl.div, hb]

theorem integrand_at_fin (step : ℚ) (i : Int) :
    integrand_at (Dbl.fin step) i = Dbl.fin (term step i) := by
  have hpos : (1 : ℚ) + ((i : ℚ) + 1/2) * step * (((i : ℚ) + 1/2) * step) ≠ 0 := by
    have := mul_self_nonneg (((i : ℚ) + 1/2) * step)
    linarith
  simp only [integrand_at, Dbl.ofInt, Dbl.fin_add_fin, Dbl.fin_mul_fin, term]
  rw [Dbl.fin_div_fin _ _ hpos, sq]

/-- Loop invariant: started after `k ≤ n` iterations with the partial sum of the first
`k` summands, the loop ends with `i = n` and the sum of all `n` summands. -/
theorem calculate_pi_loop_from (n : ℕ) (step : ℚ) (d k : ℕ) (hk : k + d = n) :
    calculate_pi_loop (n : Int) (Dbl.fin step)
        { i := (k : Int), sum := Dbl.fin (∑ j in Finset.range k, term step j) }
      = { i := (n : Int), sum := Dbl.fin (∑ j in Finset.range n, term step j) } := by
  induction d generalizing k with
  | zero =>
    have hkn : k = n := by omega
    subst hkn
    rw [calculate_pi_loop]
    simp
  | succ d ih =>
    rw [calculate_pi_loop]
    have hlt : (k : Int) < (n : Int) := by omega
    simp only [hlt, if_true, loop_body]
    rw [integrand_at_fin, Dbl.fin_add_fin, ← Finset.sum_range_succ]
    have := ih (k + 1) (by omega)
    simpa using this

/-- The loop of `calculate_pi` runs exactly `num_steps` iterations and leaves the
sequential sum of the summands in `sum`. -/
theorem calculate_pi_loop_run (n : ℕ) (step : ℚ) :
    calculate_pi_loop (n : Int) (Dbl.fin step) { i := 0, sum := Dbl.fin 0 }
      = { i := (n : Int), sum := Dbl.fin (∑ j in Finset.range n, term step j) } := by
  have := calculate_pi_loop_from n step n 0 (by omega)
  simpa using this

/-- For a positive step count, written as a natural number, `calculate_pi` is finite and
equals the midpoint rule. -/
theorem calculate_pi_nat (n : ℕ) (hn : 0 < n) :
    calculate_pi (n : Int)
      = Dbl.fin ((1 / (n : ℚ)) * ∑ j in Finset.range n, term (1 / (n : ℚ)) j) := by
  have hne : ((n : Int) : ℚ) ≠ 0 := by
    have : (0 : ℚ) < ((n : Int) : ℚ) := by exact_mod_cast hn
    exact ne_of_gt this
  simp only [calculate_pi, Dbl.ofInt]
  rw [Dbl.fin_div_fin _ _ hne]
  have hcast : (1 : ℚ) / ((n : Int) : ℚ) = 1 / (n : ℚ) := by push_cast; rfl
  rw [hcast, calculate_pi_loop_run, Dbl.fin_mul_fin]

/-- For a positive step count `calculate_pi` is the midpoint rule of the specification. -/
theorem calculate_pi_pos (num_steps : Int) (h : 0 < num_steps) :
    calculate_pi num_steps = Dbl.fin (midpoint_rule num_steps) := by
  obtain ⟨n, rfl⟩ := Int.eq_ofNat_of_zero_le (le_of_lt h)
  have hn : 0 < n := by exact_mod_cast h
  rw [calculate_pi_nat n hn]
  simp [midpoint_rule, term]

/-- Claim C1: for every `num_steps > 0`, `calculate_pi num_steps` returns the composite
midpoint-rule sum `step * Σ_{i < num_steps} 4 / (1 + x_i^2)` with `step = 1/num_steps`
and `x_i = (i + 0.5) * step`, finite arithmetic read exactly and the reduction loop read
as a sequential sum. -/
theorem calculate_pi_eq_midpoint_rule (num_steps : Int) (h : 0 < num_steps) :
    calculate_pi num_steps = Dbl.fin (midpoint_rule num_steps) := by
  obtain ⟨n, rfl⟩ := Int.eq_ofNat_of_zero_le (le_of_lt h)
  have hn : 0 < n := by exact_mod_cast h
  have hne : ((n : Int) : ℚ) ≠ 0 := by
    have : (0 : ℚ) < ((n : Int) : ℚ) := by exact_mod_cast hn
    exact ne_of_gt this
  simp only [calculate_pi, Dbl.ofInt]
  rw [Dbl.fin_div_fin _ _ hne, calculate_pi_loop_run, Dbl.fin_mul_fin]
  simp [midpoint_rule, term]

theorem calculate_pi_eq_midpoint_rule_witness :
    (0 : Int) < 4 ∧ calculate_pi 4 = Dbl.fin (midpoint_rule 4) :=
  ⟨by decide, calculate_pi_eq_midpoint_rule 4 (by decide)⟩

/-! ## Independence of the number of workers -/

theorem worker_fold_fin (step : ℚ) (share : List Int) (a : ℚ) :
    share.foldl (fun sum i => sum + integrand_at (Dbl.fin step) i) (Dbl.fin a)
      = Dbl.fin (a + (share.map (term step)).sum) := by
  induction share generalizing a with
  | nil => simp
  | cons i share ih =>
    simp only [List.foldl_cons, List.map_cons, List.sum_cons]
    rw [integrand_at_fin, Dbl.fin_add_fin, ih, add_assoc]

/-- The private partial sum of a worker is the finite sum of the summands of its share. -/
theorem worker_sum_fin (step : ℚ) (share : List Int) :
    worker_sum (Dbl.fin step) share = Dbl.fin ((share.map (term step)).sum) := by
  rw [worker_sum, worker_fold_fin, zero_add]

theorem combine_fold_fin (step : ℚ) (shares : List (List Int)) (a : ℚ) :
    shares.foldl (fun sum share => sum + worker_sum (Dbl.fin step) share) (Dbl.fin a)
      = Dbl.fin (a + (shares.flatten.map (term step)).sum) := by
  induction shares generalizing a with
  | nil => simp
  | cons share shares ih =>
    simp only [List.foldl_cons, List.flatten_cons, List.map_append, List.sum_append]
    rw [worker_sum_fin, Dbl.fin_add_fin, ih, add_assoc]

theorem list_range_sum (f : Int → ℚ) (n : ℕ) :
    (((List.range n).map Int.ofNat).map f).sum = ∑ j in Finset.range n, f (j : Int) := by
  induction n with
  | zero => simp
  | succ n ih =>
    rw [List.range_succ, List.map_append, List.map_append, List.sum_append, ih,
      Finset.sum_range_succ]
    simp

/-- Claim C7: for every `num_steps > 0` and every partition of the index range
`[0, num_steps)` into worker shares (every index in exactly one share: the shares put
together are a rearrangement of `0, ..., num_steps - 1`), accumulating a private partial
sum per share from 0 and adding the partial sums gives exactly the value of the
sequential loop. -/
theorem calculate_pi_workers_eq (num_steps : Int) (shares : List (List Int))
    (h : 0 < num_steps)
    (hpart : shares.flatten.Perm ((List.range num_steps.toNat).map Int.ofNat)) :
    calculate_pi_workers num_steps shares = calculate_pi num_steps := by
  obtain ⟨n, rfl⟩ := Int.eq_ofNat_of_zero_le (le_of_lt h)
  have hn : 0 < n := by exact_mod_cast h
  have hne : ((n : Int) : ℚ) ≠ 0 := by
    have : (0 : ℚ) < ((n : Int) : ℚ) := by exact_mod_cast hn
    exact ne_of_gt this
  have hcast : (1 : ℚ) / ((n : Int) : ℚ) = 1 / (n : ℚ) := by norm_num
  rw [calculate_pi_nat n hn]
  simp only [calculate_pi_workers, Dbl.ofInt]
  rw [Dbl.fin_div_fin _ _ hne, hcast, combine_fold_fin, Dbl.fin_mul_fin, zero_add,
    (hpart.map (term (1 / (n : ℚ)))).sum_eq]
  simp only [Int.toNat_ofNat]
  rw [list_range_sum]

theorem calculate_pi_workers_eq_witness :
    (0 : Int) < 4 ∧
      ([[0, 2], [3, 1]] : List (List Int)).flatten.Perm
        ((List.range (4 : Int).toNat).map Int.ofNat) ∧
      calculate_pi_workers 4 [[0, 2], [3, 1]] = calculate_pi 4 :=
  ⟨by decide, by decide, calculate_pi_workers_eq 4 [[0, 2], [3, 1]] (by decide) (by decide)⟩

/-! ## Non-positive step counts -/

/-- With a non-positive step count the guard `i < num_steps` fails at `i = 0`: the loop
runs no iteration and leaves the state as it was. -/
theorem calculate_pi_loop_nonpos (num_steps : Int) (h : num_steps ≤ 0) (step sum : Dbl) :
    calculate_pi_loop num_steps step { i := 0, sum := sum } = { i := 0, sum := sum } := by
  rw [calculate_pi_loop]
  have hn : ¬ ((0 : Int) < num_steps) := not_lt.mpr h
  simp [hn]

theorem calculate_pi_neg (num_steps : Int) (h : num_steps < 0) :
    calculate_pi num_steps = Dbl.fin 0 := by
  have hne : ((num_steps : Int) : ℚ) ≠ 0 := by
    have : ((num_steps : Int) : ℚ) < 0 := by exact_mod_cast h
    exact ne_of_lt this
  simp only [calculate_pi, Dbl.ofInt]
  rw [calculate_pi_loop_nonpos num_steps (le_of_lt h), Dbl.fin_div_fin _ _ hne,
    Dbl.fin_mul_fin, mul_zero]

theorem step_zero : Dbl.fin 1 / Dbl.ofInt 0 = Dbl.pinf := by
  show Dbl.div (Dbl.fin 1) (Dbl.fin ((0 : Int) : ℚ)) = _
  simp [Dbl.div, Dbl.infOfSign]

theorem calculate_pi_zero : calculate_pi 0 = Dbl.nan := by
  simp only [calculate_pi]
  rw [calculate_pi_loop_nonpos 0 (le_refl 0), step_zero]
  rfl

/-- Claim C2, as stated, fails at `num_steps = -5`: the call returns the value 0 and
raises no `InvalidArgument`. -/
theorem calculate_pi_call_neg_five_returns :
    calculate_pi_call (-5) = Except.ok (Dbl.fin 0) ∧
      calculate_pi_call (-5) ≠ Except.error ErrorKind.InvalidArgument := by
  have h : calculate_pi_call (-5) = Except.ok (Dbl.fin 0) := by
    simp only [calculate_pi_call]
    rw [calculate_pi_neg (-5) (by decide)]
  refine ⟨h, ?_⟩
  rw [h]
  intro hc
  cases hc

/-- Claim C2, amended: for every `num_steps ≤ 0` the call `calculate_pi(num_steps)`
raises no error and returns a value: `NaN` when `num_steps` is 0, and 0 when it is
negative. -/
theorem calculate_pi_call_nonpos (num_steps : Int) (h : num_steps ≤ 0) :
    calculate_pi_call num_steps
      = Except.ok (if num_steps = 0 then Dbl.nan else Dbl.fin 0) := by
  simp only [calculate_pi_call]
  by_cases h0 : num_steps = 0
  · subst h0
    rw [calculate_pi_zero]
    simp
  · have hlt : num_steps < 0 := lt_of_le_of_ne h h0
    rw [calculate_pi_neg num_steps hlt]
    simp [h0]

theorem calculate_pi_call_nonpos_witness :
    (-5 : Int) ≤ 0 ∧ calculate_pi_call (-5)
      = Except.ok (if (-5 : Int) = 0 then Dbl.nan else Dbl.fin 0) :=
  ⟨by decide, calculate_pi_call_nonpos (-5) (by decide)⟩

/-- Claim C9, as stated, fails at `num_steps = 0`: the loop runs no iteration, but the
call returns `Inf * 0 = NaN`, not 0. -/
theorem calculate_pi_zero_is_nan :
    (0 : Int) ≤ 0 ∧ calculate_pi 0 = Dbl.nan ∧ calculate_pi 0 ≠ Dbl.fin 0 := by
  refine ⟨le_refl 0, calculate_pi_zero, ?_⟩
  rw [calculate_pi_zero]
  intro hc
  cases hc

/-- Claim C9, amended: for every non-positive `num_steps` the loop of `calculate_pi`
runs zero iterations (`i` and `sum` stay 0); for a negative `num_steps` the call returns
0 (`step * 0`); for `num_steps = 0` the step is `1.0 / 0 = +Inf` and the call returns
`Inf * 0 = NaN`. -/
theorem calculate_pi_nonpos (num_steps : Int) (h : num_steps ≤ 0) :
    calculate_pi_loop num_steps (Dbl.fin 1 / Dbl.ofInt num_steps) { i := 0, sum := Dbl.fin 0 }
        = { i := 0, sum := Dbl.fin 0 } ∧
      (num_steps < 0 → calculate_pi num_steps = Dbl.fin 0) ∧
      (num_steps = 0 →
        Dbl.fin 1 / Dbl.ofInt num_steps = Dbl.pinf ∧ calculate_pi num_steps = Dbl.nan) := by
  refine ⟨calculate_pi_loop_nonpos num_steps h _ _, calculate_pi_neg num_steps, ?_⟩
  intro h0
  subst h0
  exact ⟨step_zero, calculate_pi_zero⟩

theorem calculate_pi_nonpos_witness :
    (-5 : Int) ≤ 0 ∧
      (calculate_pi_loop (-5) (Dbl.fin 1 / Dbl.ofInt (-5)) { i := 0, sum := Dbl.fin 0 }
        = { i := 0, sum := Dbl.fin 0 } ∧
      ((-5 : Int) < 0 → calculate_pi (-5) = Dbl.fin 0) ∧
      ((-5 : Int) = 0 →
        Dbl.fin 1 / Dbl.ofInt (-5) = Dbl.pinf ∧ calculate_pi (-5) = Dbl.nan)) :=
  ⟨by decide, calculate_pi_nonpos (-5) (by decide)⟩

/-! ## The command-line program -/

theorem main_loop_fin (num_steps : Int) (m : ℚ) (hm : calculate_pi num_steps = Dbl.fin m)
    (k : ℕ) (a : ℚ) :
    main_loop num_steps k (Dbl.fin a) = Dbl.fin (a + k * m) := by
  induction k generalizing a with
  | zero => simp [main_loop]
  | succ k ih =>
    simp only [main_loop, hm, Dbl.fin_add_fin]
    rw [ih]
    congr 1
    push_cast
    ring

theorem main_loop_nan (num_steps : Int) (k : ℕ) :
    main_loop num_steps k Dbl.nan = Dbl.nan := by
  induction k with
  | zero => rfl
  | succ k ih =>
    simp only [main_loop]
    have : Dbl.nan + calculate_pi num_steps = Dbl.nan := by
      show Dbl.add Dbl.nan _ = _
      cases calculate_pi num_steps <;> rfl
    rw [this, ih]

/-- The value `main` prints after "Calculation of Pi: ": the mean of 100 equal finite
estimates is the estimate, and 100 `NaN`s add up to `NaN`. -/
theorem main_printed_value (num_steps : Int) :
    main_loop num_steps 100 (Dbl.fin 0) / Dbl.ofInt ((100 : Nat) : Int)
      = if 0 < num_steps then Dbl.fin (midpoint_rule num_steps)
        else if num_steps = 0 then Dbl.nan else Dbl.fin 0 := by
  have h100 : (((100 : Nat) : Int) : ℚ) ≠ 0 := by norm_num
  by_cases hpos : 0 < num_steps
  · rw [main_loop_fin num_steps _ (calculate_pi_pos num_steps hpos)]
    simp only [Dbl.ofInt, hpos, if_true]
    rw [Dbl.fin_div_fin _ _ h100]
    congr 1
    push_cast
    ring
  · by_cases h0 : num_steps = 0
    · subst h0
      have hstep : main_loop 0 100 (Dbl.fin 0) = main_loop 0 99 Dbl.nan := by
        show main_loop 0 99 (Dbl.fin 0 + calculate_pi 0) = _
        rw [calculate_pi_zero]
        rfl
      rw [hstep, main_loop_nan]
      simp only [lt_irrefl, if_false, if_true]
      rfl
    · have hlt : num_steps < 0 := lt_of_le_of_ne (not_lt.mp hpos) h0
      rw [main_loop_fin num_steps _ (calculate_pi_neg num_steps hlt)]
      simp only [Dbl.ofInt, hpos, h0, if_false]
      rw [Dbl.fin_div_fin _ _ h100]
      congr 1
      push_cast
      ring

/-- Claim C8, as stated, fails at the non-numeric argument `abc` and at the non-positive
argument `-5`: `main` prints an estimate (`NaN`, respectively 0), writes nothing to the
error stream and exits with status 0. -/
theorem main_accepts_bad_step_count :
    atoi "abc" = 0 ∧
      main 4 (Dbl.fin 1) ["calculate_pi", "abc"]
        = MainResult.exit 0
            [Printed.running 0 4, Printed.calculation Dbl.nan,
              Printed.duration (Dbl.fin (1 / 100))] [] ∧
      atoi "-5" = -5 ∧
      main 4 (Dbl.fin 1) ["calculate_pi", "-5"]
        = MainResult.exit 0
            [Printed.running (-5) 4, Printed.calculation (Dbl.fin 0),
              Printed.duration (Dbl.fin (1 / 100))] [] := by
  have hd : Dbl.fin 1 / Dbl.ofInt ((100 : Nat) : Int) = Dbl.fin (1 / 100) := by
    simp only [Dbl.ofInt]
    rw [Dbl.fin_div_fin _ _ (by norm_num)]
    norm_num
  have ha : atoi "abc" = 0 := by decide
  have hb : atoi "-5" = -5 := by decide
  refine ⟨ha, ?_, hb, ?_⟩
  · have hget : (["calculate_pi", "abc"] : List String).get? 1 = some "abc" := by decide
    simp only [main, hget, ha, hd]
    rw [main_printed_value]
    simp
  · have hget : (["calculate_pi", "-5"] : List String).get? 1 = some "-5" := by decide
    simp only [main, hget, hb, hd]
    rw [main_printed_value]
    simp

/-- Claim C8, amended: for every argument list that has a step-count argument, whatever
it parses to, `main` exits with status 0, writes nothing to the error stream and prints
an estimate: the midpoint-rule value when the parsed count is positive, `NaN` when it is
0 (which is what a non-numeric argument parses to) and 0 when it is negative. -/
theorem main_exits_zero (num_threads : Int) (elapsed : Dbl) (argv : List String)
    (arg : String) (harg : argv.get? 1 = some arg) :
    main num_threads elapsed argv
      = MainResult.exit 0
          [Printed.running (atoi arg) num_threads,
            Printed.calculation
              (if 0 < atoi arg then Dbl.fin (midpoint_rule (atoi arg))
                else if atoi arg = 0 then Dbl.nan else Dbl.fin 0),
            Printed.duration (elapsed / Dbl.ofInt ((100 : Nat) : Int))] [] := by
  simp only [main, harg]
  rw [main_printed_value]

theorem main_exits_zero_witness :
    (["calculate_pi", "1000"] : List String).get? 1 = some "1000" ∧
      main 8 (Dbl.fin 2) ["calculate_pi", "1000"]
        = MainResult.exit 0
            [Printed.running (atoi "1000") 8,
              Printed.calculation
                (if 0 < atoi "1000" then Dbl.fin (midpoint_rule (atoi "1000"))
                  else if atoi "1000" = 0 then Dbl.nan else Dbl.fin 0),
              Printed.duration (Dbl.fin 2 / Dbl.ofInt ((100 : Nat) : Int))] [] :=
  ⟨by decide, main_exits_zero 8 (Dbl.fin 2) ["calculate_pi", "1000"] "1000" (by decide)⟩

/-! ## Error of the midpoint rule -/

theorem integrand_continuous : Continuous fun x : ℝ => 4 / (1 + x ^ 2) :=
  Continuous.div continuous_const (by continuity) (fun x => by positivity)

/-- The integrand `4 / (1 + x^2)` differs from its tangent at `m` by at most
`4 (x - m)^2`: half the bound 8 on its second derivative. -/
theorem integrand_tangent_bound (x m : ℝ) :
    |4 / (1 + x ^ 2) - 4 / (1 + m ^ 2) - (-(8 * m) / (1 + m ^ 2) ^ 2) * (x - m)|
      ≤ 4 * (x - m) ^ 2 := by
  have hx : (0 : ℝ) < 1 + x ^ 2 := by positivity
  have hm : (0 : ℝ) < 1 + m ^ 2 := by positivity
  have hD : (0 : ℝ) < (1 + x ^ 2) * (1 + m ^ 2) ^ 2 := by positivity
  have heq : 4 / (1 + x ^ 2) - 4 / (1 + m ^ 2) - (-(8 * m) / (1 + m ^ 2) ^ 2) * (x - m)
      = 4 * (x - m) ^ 2 * ((m ^ 2 + 2 * m * x - 1) / ((1 + x ^ 2) * (1 + m ^ 2) ^ 2)) := by
    field_simp
    ring
  rw [heq, abs_mul, abs_of_nonneg (by positivity : (0 : ℝ) ≤ 4 * (x - m) ^ 2)]
  have hfrac : |(m ^ 2 + 2 * m * x - 1) / ((1 + x ^ 2) * (1 + m ^ 2) ^ 2)| ≤ 1 := by
    rw [abs_div, abs_of_pos hD, div_le_one hD, abs_le]
    constructor
    · nlinarith [sq_nonneg (m + x), sq_nonneg (m * x), sq_nonneg m, sq_nonneg x,
        sq_nonneg (m ^ 2), mul_nonneg (sq_nonneg x) (sq_nonneg (m ^ 2)),
        mul_nonneg (sq_nonneg x) (sq_nonneg m)]
    · nlinarith [sq_nonneg (m - x), sq_nonneg (m * x), sq_nonneg m, sq_nonneg x,
        sq_nonneg (m ^ 2), mul_nonneg (sq_nonneg x) (sq_nonneg (m ^ 2)),
        mul_nonneg (sq_nonneg x) (sq_nonneg m)]
  calc 4 * (x - m) ^ 2 * |(m ^ 2 + 2 * m * x - 1) / ((1 + x ^ 2) * (1 + m ^ 2) ^ 2)|
      ≤ 4 * (x - m) ^ 2 * 1 := mul_le_mul_of_nonneg_left hfrac (by positivity)
    _ = 4 * (x - m) ^ 2 := by ring

theorem integral_centred_sq (a h : ℝ) :
    ∫ x in a..(a + h), 4 * (x - (a + h / 2)) ^ 2 = h ^ 3 / 3 := by
  rw [intervalIntegral.integral_const_mul,
    intervalIntegral.integral_comp_sub_right (fun x => x ^ 2) (a + h / 2), integral_pow]
  ring

theorem integral_centred_lin (a h c : ℝ) :
    ∫ x in a..(a + h), c * (x - (a + h / 2)) = 0 := by
  rw [intervalIntegral.integral_const_mul,
    intervalIntegral.integral_comp_sub_right (fun x => x) (a + h / 2), integral_id]
  ring

/-- Error of the midpoint rule on one slice `[a, a + h]`. -/
theorem slice_error (a h : ℝ) (hh : 0 ≤ h) :
    |(∫ x in a..(a + h), 4 / (1 + x ^ 2)) - h * (4 / (1 + (a + h / 2) ^ 2))|
      ≤ h ^ 3 / 3 := by
  have hab : a ≤ a + h := by linarith
  have hf : IntervalIntegrable (fun x : ℝ => 4 / (1 + x ^ 2)) MeasureTheory.volume a (a + h) :=
    integrand_continuous.intervalIntegrable _ _
  have hlin : IntervalIntegrable
      (fun x : ℝ => (-(8 * (a + h / 2)) / (1 + (a + h / 2) ^ 2) ^ 2) * (x - (a + h / 2)))
      MeasureTheory.volume a (a + h) :=
    (by continuity : Continuous fun x : ℝ =>
      (-(8 * (a + h / 2)) / (1 + (a + h / 2) ^ 2) ^ 2) * (x - (a + h / 2))).intervalIntegrable
      _ _
  have hconst : IntervalIntegrable (fun _ : ℝ => 4 / (1 + (a + h / 2) ^ 2))
      MeasureTheory.volume a (a + h) :=
    continuous_const.intervalIntegrable _ _
  have hsq : IntervalIntegrable (fun x : ℝ => 4 * (x - (a + h / 2)) ^ 2)
      MeasureTheory.volume a (a + h) :=
    (by continuity : Continuous fun x : ℝ => 4 * (x - (a + h / 2)) ^ 2).intervalIntegrable _ _
  have hrem : Continuous fun x : ℝ => 4 / (1 + x ^ 2) - 4 / (1 + (a + h / 2) ^ 2)
      - (-(8 * (a + h / 2)) / (1 + (a + h / 2) ^ 2) ^ 2) * (x - (a + h / 2)) :=
    (integrand_continuous.sub continuous_const).sub (by continuity)
  have hsplit : ∫ x in a..(a + h), (4 / (1 + x ^ 2) - 4 / (1 + (a + h / 2) ^ 2)
        - (-(8 * (a + h / 2)) / (1 + (a + h / 2) ^ 2) ^ 2) * (x - (a + h / 2)))
      = (∫ x in a..(a + h), 4 / (1 + x ^ 2)) - h * (4 / (1 + (a + h / 2) ^ 2)) := by
    rw [intervalIntegral.integral_sub (hf.sub hconst) hlin,
      intervalIntegral.integral_sub hf hconst, integral_centred_lin,
      intervalIntegral.integral_const]
    simp
  rw [← hsplit]
  calc |∫ x in a..(a + h), (4 / (1 + x ^ 2) - 4 / (1 + (a + h / 2) ^ 2)
          - (-(8 * (a + h / 2)) / (1 + (a + h / 2) ^ 2) ^ 2) * (x - (a + h / 2)))|
      ≤ ∫ x in a..(a + h), |4 / (1 + x ^ 2) - 4 / (1 + (a + h / 2) ^ 2)
          - (-(8 * (a + h / 2)) / (1 + (a + h / 2) ^ 2) ^ 2) * (x - (a + h / 2))| :=
        intervalIntegral.abs_integral_le_integral_abs hab
    _ ≤ ∫ x in a..(a + h), 4 * (x - (a + h / 2)) ^ 2 :=
        intervalIntegral.integral_mono_on hab (hrem.abs.intervalIntegrable _ _) hsq
          (fun x _ => integrand_tangent_bound x (a + h / 2))
    _ = h ^ 3 / 3 := integral_centred_sq a h

/-- The integral the program estimates is π. -/
theorem integral_integrand_eq_pi : ∫ x in (0 : ℝ)..1, 4 / (1 + x ^ 2) = Real.pi := by
  have h : ∀ x : ℝ, 4 / (1 + x ^ 2) = 4 * (1 + x ^ 2)⁻¹ := fun x => by
    rw [div_eq_mul_inv]
  simp only [h]
  rw [intervalIntegral.integral_const_mul, integral_inv_one_add_sq]
  simp [Real.arctan_one]
  ring

/-- Error of the composite midpoint rule with `n` slices over `[0, 1]`. -/
theorem midpoint_sum_error (n : ℕ) (hn : 0 < n) :
    |(∑ i in Finset.range n,
        (1 / (n : ℝ)) * (4 / (1 + ((i : ℝ) * (1 / n) + (1 / n) / 2) ^ 2))) - Real.pi|
      ≤ 1 / (3 * (n : ℝ) ^ 2) := by
  have hnpos : (0 : ℝ) < n := by exact_mod_cast hn
  have hh : (0 : ℝ) ≤ 1 / n := by positivity
  have hsum : ∑ i in Finset.range n,
      ∫ x in ((i : ℝ) * (1 / n))..(((i + 1 : ℕ) : ℝ) * (1 / n)), 4 / (1 + x ^ 2)
        = Real.pi := by
    rw [intervalIntegral.sum_integral_adjacent_intervals
      (f := fun x : ℝ => 4 / (1 + x ^ 2)) (a := fun k : ℕ => (k : ℝ) * (1 / n))
      (fun k _ => integrand_continuous.intervalIntegrable _ _)]
    simp only [Nat.cast_zero, zero_mul]
    rw [mul_one_div_cancel (ne_of_gt hnpos), integral_integrand_eq_pi]
  rw [abs_sub_comm, ← hsum, ← Finset.sum_sub_distrib]
  calc |∑ i in Finset.range n,
          ((∫ x in ((i : ℝ) * (1 / n))..(((i + 1 : ℕ) : ℝ) * (1 / n)), 4 / (1 + x ^ 2))
            - 1 / (n : ℝ) * (4 / (1 + ((i : ℝ) * (1 / n) + (1 / n) / 2) ^ 2)))|
      ≤ ∑ i in Finset.range n,
          |(∫ x in ((i : ℝ) * (1 / n))..(((i + 1 : ℕ) : ℝ) * (1 / n)), 4 / (1 + x ^ 2))
            - 1 / (n : ℝ) * (4 / (1 + ((i : ℝ) * (1 / n) + (1 / n) / 2) ^ 2))| :=
        Finset.abs_sum_le_sum_abs _ _
    _ ≤ ∑ _i in Finset.range n, (1 / (n : ℝ)) ^ 3 / 3 := by
        apply Finset.sum_le_sum
        intro i _
        have hb : ((i + 1 : ℕ) : ℝ) * (1 / n) = (i : ℝ) * (1 / n) + 1 / n := by
          push_cast
          ring
        rw [hb]
        exact slice_error _ _ hh
    _ = 1 / (3 * (n : ℝ) ^ 2) := by
        rw [Finset.sum_const, Finset.card_range, nsmul_eq_mul]
        field_simp
        ring

/-- The rational midpoint rule, read in the reals, is within `1 / (3 n^2)` of π. -/
theorem midpoint_rule_error (n : ℕ) (hn : 0 < n) :
    |((midpoint_rule (n : Int) : ℚ) : ℝ) - Real.pi| ≤ 1 / (3 * (n : ℝ) ^ 2) := by
  have hcast : ((midpoint_rule (n : Int) : ℚ) : ℝ)
      = ∑ i in Finset.range n,
          (1 / (n : ℝ)) * (4 / (1 + ((i : ℝ) * (1 / n) + (1 / n) / 2) ^ 2)) := by
    simp only [midpoint_rule, Int.toNat_ofNat]
    push_cast
    rw [Finset.mul_sum]
    apply Finset.sum_congr rfl
    intro i _
    have hx : ((i : ℝ) + 1 / 2) * (1 / (n : ℝ)) = (i : ℝ) * (1 / n) + (1 / n) / 2 := by ring
    rw [hx]
  rw [hcast]
  exact midpoint_sum_error n hn

/-- For a positive step count `calculate_pi` returns a finite value within
`1 / (3 n^2)` of π. -/
theorem calculate_pi_near_pi (n : ℕ) (hn : 0 < n) :
    ∃ q : ℚ, calculate_pi (n : Int) = Dbl.fin q ∧
      |(q : ℝ) - Real.pi| ≤ 1 / (3 * (n : ℝ) ^ 2) :=
  ⟨midpoint_rule (n : Int), calculate_pi_pos (n : Int) (by exact_mod_cast hn),
    midpoint_rule_error n hn⟩

/-- Lower bound on the estimate with 100 steps, by evaluating the rational sum. -/
theorem midpoint_rule_hundred : (31416 / 10000 : ℚ) ≤ midpoint_rule 100 := by
  have h : midpoint_rule 100
      = (1 / (100 : ℚ)) * ∑ j in Finset.range 100,
          4 / (1 + (((j : ℚ) + 1 / 2) * (1 / (100 : ℚ))) ^ 2) := by
    simp [midpoint_rule]
  rw [h]
  norm_num [Finset.sum_range_succ]

/-- Claim C10: for every `num_steps = n ≥ 1`, `calculate_pi n` is a finite value with
`|calculate_pi n - π| ≤ 1 / (3 n^2)`, finite arithmetic read exactly. -/
theorem calculate_pi_error_bound (n : Int) (h : 1 ≤ n) :
    ∃ q : ℚ, calculate_pi n = Dbl.fin q ∧
      |(q : ℝ) - Real.pi| ≤ 1 / (3 * (n : ℝ) ^ 2) := by
  obtain ⟨k, rfl⟩ := Int.eq_ofNat_of_zero_le (by omega : 0 ≤ n)
  have hk : 0 < k := by omega
  simpa using calculate_pi_near_pi k hk

theorem calculate_pi_error_bound_witness :
    (1 : Int) ≤ 10 ∧ ∃ q : ℚ, calculate_pi 10 = Dbl.fin q ∧
      |(q : ℝ) - Real.pi| ≤ 1 / (3 * ((10 : Int) : ℝ) ^ 2) :=
  ⟨by decide, calculate_pi_error_bound 10 (by decide)⟩

/-- Claim C3: the sequence `calculate_pi n`, `n = 1, 2, 3, ...`, converges to π: for every
`eps > 0` there is an `N` such that for every `n ≥ N` the value `calculate_pi n` is
finite and `|calculate_pi n - π| < eps`, finite arithmetic read exactly. -/
theorem calculate_pi_converges (eps : ℝ) (heps : 0 < eps) :
    ∃ N : ℕ, ∀ n : ℕ, N ≤ n →
      ∃ q : ℚ, calculate_pi (n : Int) = Dbl.fin q ∧ |(q : ℝ) - Real.pi| < eps := by
  refine ⟨Nat.ceil (1 / eps) + 1, fun n hn => ?_⟩
  have hn1 : 0 < n := by omega
  obtain ⟨q, hq, hb⟩ := calculate_pi_near_pi n hn1
  refine ⟨q, hq, lt_of_le_of_lt hb ?_⟩
  have hnpos : (0 : ℝ) < n := by exact_mod_cast hn1
  have hn1r : (1 : ℝ) ≤ n := by exact_mod_cast hn1
  have hceil : 1 / eps < (n : ℝ) := by
    have h1 : 1 / eps ≤ (Nat.ceil (1 / eps) : ℝ) := Nat.le_ceil _
    have h2 : ((Nat.ceil (1 / eps) + 1 : ℕ) : ℝ) ≤ n := by exact_mod_cast hn
    push_cast at h2
    linarith
  have hlt : 1 < eps * n := by
    have := (div_lt_iff₀ heps).mp hceil
    linarith
  rw [div_lt_iff₀ (by positivity)]
  nlinarith [mul_pos heps hnpos]

theorem calculate_pi_converges_witness :
    (0 : ℝ) < 1 ∧ ∃ N : ℕ, ∀ n : ℕ, N ≤ n →
      ∃ q : ℚ, calculate_pi (n : Int) = Dbl.fin q ∧ |(q : ℝ) - Real.pi| < 1 :=
  ⟨by norm_num, calculate_pi_converges 1 (by norm_num)⟩

/-- Claim C4: `calculate_pi 1000000` is a finite value within `1e-6` of π, finite
arithmetic read exactly. -/
theorem calculate_pi_million :
    ∃ q : ℚ, calculate_pi 1000000 = Dbl.fin q ∧ |(q : ℝ) - Real.pi| ≤ 1 / 1000000 := by
  obtain ⟨q, hq, hb⟩ := calculate_pi_near_pi 1000000 (by norm_num)
  refine ⟨q, by simpa using hq, le_trans hb ?_⟩
  norm_num

/-- Claim C5: `calculate_pi 1000` is a finite value within `1e-5` of π, finite
arithmetic read exactly. -/
theorem calculate_pi_thousand :
    ∃ q : ℚ, calculate_pi 1000 = Dbl.fin q ∧ |(q : ℝ) - Real.pi| ≤ 1 / 100000 := by
  obtain ⟨q, hq, hb⟩ := calculate_pi_near_pi 1000 (by norm_num)
  refine ⟨q, by simpa using hq, le_trans hb ?_⟩
  norm_num

/-- Claim C6: the error of `calculate_pi 1000000` is smaller than the error of
`calculate_pi 100`: both values are finite and
`|calculate_pi 1000000 - π| < |calculate_pi 100 - π|`, finite arithmetic read exactly. -/
theorem calculate_pi_error_decreases :
    ∃ q₁ q₂ : ℚ, calculate_pi 1000000 = Dbl.fin q₁ ∧ calculate_pi 100 = Dbl.fin q₂ ∧
      |(q₁ : ℝ) - Real.pi| < |(q₂ : ℝ) - Real.pi| := by
  obtain ⟨q₁, hq₁, hb⟩ := calculate_pi_near_pi 1000000 (by norm_num)
  refine ⟨q₁, midpoint_rule 100, by simpa using hq₁, calculate_pi_pos 100 (by decide), ?_⟩
  have hlow : ((31416 / 10000 : ℚ) : ℝ) ≤ ((midpoint_rule 100 : ℚ) : ℝ) :=
    Rat.cast_le.mpr midpoint_rule_hundred
  have hpi := Real.pi_lt_d6
  have hsmall : |(q₁ : ℝ) - Real.pi| ≤ 1 / 1000000 := le_trans hb (by norm_num)
  have hbig : (1 / 1000000 : ℝ) < ((midpoint_rule 100 : ℚ) : ℝ) - Real.pi := by
    push_cast at hlow
    norm_num at hpi hlow ⊢
    linarith
  exact lt_of_le_of_lt hsmall (lt_of_lt_of_le hbig (le_abs_self _))

end CalculatePi
